import Mathlib

/-!
Verification of the secret-sharing reconstruction code: a shallow embedding of
the two source files (the browser script `shamir.js` and the Node script
`main.js`) together with proofs about the embedded functions.

JavaScript `BigInt` arithmetic is modelled by `ℤ`.  The JavaScript `%`
operator on `BigInt` is the truncating remainder, modelled by `Int.tmod`;
`BigInt` division truncates toward zero, modelled by `Int.tdiv`.  Code that
throws is modelled with `Option`/`Except`.
-/

/-- Insertion of an element into a list sorted by `le`, keeping it before the
first element it compares `le` to. -/
def insertSorted {α : Type} (le : α → α → Bool) (a : α) : List α → List α
  | [] => [a]
  | b :: t => if le a b then a :: b :: t else b :: insertSorted le a t

/-- Stable ascending sort (insertion sort), modelling JavaScript's stable
`Array.prototype.sort` with a numeric comparator. -/
def sortBy {α : Type} (le : α → α → Bool) (l : List α) : List α :=
  l.foldr (insertSorted le) []

namespace Shamir

/-- Errors thrown by the reconstruction code in `shamir.js`. -/
inductive RecError
  | noShares
  | degenerateShares
  | noInverseExists
deriving DecidableEq

/-- Errors surfaced by `processTestCase` in `shamir.js`. -/
inductive TCError
  | invalidN
  | invalidK
  | insufficientShares
  | reconError (e : RecError)
deriving DecidableEq

/-- The function `mod` of `shamir.js`: `((n % m) + m) % m`, with JavaScript's
truncating `%` on `BigInt` (`Int.tmod`). -/
def mod (n m : ℤ) : ℤ :=
  Int.tmod (Int.tmod n m + m) m

/-- The function `modInverse` of `shamir.js`: after normalising `a` with
`mod`, it brute-force searches `x = 1, …, m-1` for the first `x` with
`mod (a * x) m = 1`, and throws (here: `none`) when the loop finds none. -/
def modInverse (a m : ℤ) : Option ℤ :=
  ((List.range (m - 1).toNat).map (fun i : ℕ => (i : ℤ) + 1)).find?
    (fun x => Shamir.mod (Shamir.mod a m * x) m == 1)

/-- Digits of an (optionally signed) decimal literal, accumulated left to
right, as done by the JavaScript `BigInt(string)` conversion. -/
def decimalValue (ds : List Char) : ℤ :=
  ds.foldl (fun acc c => acc * 10 + ((c.toNat - '0'.toNat : ℕ) : ℤ)) 0

/-- Model of the JavaScript builtin `BigInt(string)`: the whole string must be
an optionally signed decimal numeral (the empty string converts to `0`), and
any other string throws a `SyntaxError` (here: `none`).  Prefixed binary,
octal and hexadecimal literals, which never occur in the inputs treated here,
are omitted.  JavaScript's `BigInt` takes a single argument. -/
def jsStringToBigInt (s : String) : Option ℤ :=
  match s.toList with
  | [] => some 0
  | '-' :: ds =>
    if ds ≠ [] ∧ ds.all Char.isDigit then some (-(decimalValue ds)) else none
  | '+' :: ds =>
    if ds ≠ [] ∧ ds.all Char.isDigit then some (decimalValue ds) else none
  | ds =>
    if ds.all Char.isDigit then some (decimalValue ds) else none

/-- The function `decodeYValue` of `shamir.js`.  The source calls
`BigInt(valueString, base)`; JavaScript's `BigInt` ignores every argument
after the first, so the stated base never influences the result. -/
def decodeYValue (valueString : String) (base : ℕ) : Option ℤ :=
  jsStringToBigInt valueString

/-- The inner `m`-loop of `reconstructSecret` in `shamir.js` for a fixed outer
index `j` with x-coordinate `xj`: it walks the (indexed) share list,
skipping index `j`, and accumulates the numerator `mod (num * xm) p` and the
denominator `mod (den * (xm - xj)) p`, throwing `degenerateShares` as soon
as `mod (xm - xj) p = 0`. -/
def reconstructNumDen (p xj : ℤ) (j : ℕ) :
    List (ℕ × ℤ × ℤ) → ℤ × ℤ → Except RecError (ℤ × ℤ)
  | [], acc => .ok acc
  | (m, xm, _) :: rest, (num, den) =>
    if m = j then reconstructNumDen p xj j rest (num, den)
    else
      let num' := Shamir.mod (num * xm) p
      let diff := Shamir.mod (xm - xj) p
      if diff = 0 then .error .degenerateShares
      else reconstructNumDen p xj j rest (num', Shamir.mod (den * diff) p)

/-- The outer `j`-loop of `reconstructSecret` in `shamir.js`: for each share
`(j, xj, yj)` still to process it runs the inner loop over the whole share
list, inverts the denominator with `modInverse` (throwing
`noInverseExists` when that fails), and adds
`mod (mod (yj * inv) p * num) p` into the running secret mod `p`. -/
def reconstructLoop (p : ℤ) (allShares : List (ℕ × ℤ × ℤ)) :
    List (ℕ × ℤ × ℤ) → ℤ → Except RecError ℤ
  | [], secret => .ok secret
  | (j, xj, yj) :: rest, secret =>
    match reconstructNumDen p xj j allShares (1, 1) with
    | .error e => .error e
    | .ok (num, den) =>
      match modInverse den p with
      | none => .error .noInverseExists
      | some inv =>
        let term := Shamir.mod (yj * inv) p
        let term' := Shamir.mod (term * num) p
        reconstructLoop p allShares rest (Shamir.mod (secret + term') p)

/-- The function `reconstructSecret` of `shamir.js`: throws on an empty share
list, and otherwise performs modular Lagrange interpolation at zero over the
(index-decorated) share list, starting from secret `0`. -/
def reconstructSecret (shares : List (ℤ × ℤ)) (p : ℤ) : Except RecError ℤ :=
  if shares.length = 0 then .error .noShares
  else reconstructLoop p shares.enum shares.enum 0

/-- The share-collection part of `processTestCase` in `shamir.js`: a share
survives when its declared base lies in `[2, 36]` and its value string
decodes (shares failing either test are dropped with a console warning). -/
def survivingShares (entries : List (ℤ × ℤ × String)) : List (ℤ × ℤ) :=
  entries.filterMap (fun e =>
    if 2 ≤ e.2.1 ∧ e.2.1 ≤ 36 then
      (decodeYValue e.2.2 e.2.1.toNat).map (fun y => (e.1, y))
    else none)

/-- The function `processTestCase` of `shamir.js`, for an already-parsed
input: validate `n` and `k`, collect the surviving shares, fail with
`insufficientShares` when fewer than `k` survive, and otherwise reconstruct
from the first `k` surviving shares sorted by ascending x. -/
def processTestCase (entries : List (ℤ × ℤ × String)) (n k p : ℤ) :
    Except TCError ℤ :=
  if n < 1 then .error .invalidN
  else if k < 2 ∨ k > n then .error .invalidK
  else
    let shares := survivingShares entries
    if (shares.length : ℤ) < k then .error .insufficientShares
    else
      match reconstructSecret
          ((sortBy (fun a b => decide (a.1 ≤ b.1)) shares).take k.toNat) p with
      | .ok v => .ok v
      | .error e => .error (.reconError e)

/-- Field-level value of the numerator accumulated by `reconstructNumDen`
for outer index `j`: the product in `ZMod q` of the x-coordinates of the
entries whose index differs from `j`. -/
def prodXZ (q : ℕ) (j : ℕ) (l : List (ℕ × ℤ × ℤ)) : ZMod q :=
  (l.map (fun e => if e.1 = j then 1 else ((e.2.1 : ZMod q)))).prod

/-- Field-level value of the denominator accumulated by `reconstructNumDen`
for outer index `j` with x-coordinate `xj`: the product in `ZMod q` of
`xm - xj` over the entries whose index differs from `j`. -/
def prodDZ (q : ℕ) (j : ℕ) (xj : ℤ) (l : List (ℕ × ℤ × ℤ)) : ZMod q :=
  (l.map (fun e => if e.1 = j then 1 else ((e.2.1 : ZMod q) - (xj : ZMod q)))).prod

/-- Field-level value of one Lagrange term added by `reconstructLoop` for the
share entry `e` against the full entry list `allE`. -/
def termZ (q : ℕ) (allE : List (ℕ × ℤ × ℤ)) (e : ℕ × ℤ × ℤ) : ZMod q :=
  (e.2.2 : ZMod q) * (prodDZ q e.1 e.2.1 allE)⁻¹ * prodXZ q e.1 allE

/-- The entry list contains an entry with index other than `j` whose
x-coordinate collides with `xj` modulo `q` — exactly the situation in which
`reconstructNumDen` for index `j` throws `degenerateShares`. -/
def Collides (q : ℕ) (l : List (ℕ × ℤ × ℤ)) (j : ℕ) (xj : ℤ) : Prop :=
  ∃ e ∈ l, e.1 ≠ j ∧ ((e.2.1 - xj : ℤ) : ZMod q) = 0

end Shamir

namespace MainJs

/-- The value JavaScript's `parseInt(digit, base)` assigns to one character:
decimal digits, then case-insensitive letters starting at 10; any other
character (or a digit value not below the radix) yields `NaN` (here:
`none`, matching the `RangeError` that `BigInt(NaN)` then throws in the
source). -/
def digitVal (c : Char) : Option ℕ :=
  if '0' ≤ c ∧ c ≤ '9' then some (c.toNat - '0'.toNat)
  else if 'a' ≤ c ∧ c ≤ 'z' then some (c.toNat - 'a'.toNat + 10)
  else if 'A' ≤ c ∧ c ≤ 'Z' then some (c.toNat - 'A'.toNat + 10)
  else none

/-- The function `convertToDecimal` of `main.js`: fold over the characters,
multiplying the accumulator by the base and adding each digit's value
(per-character `parseInt(digit, base)`); a character with no digit value
below the base throws. -/
def convertToDecimal (value : String) (base : ℕ) : Option ℤ :=
  value.toList.foldlM
    (fun acc c =>
      match digitVal c with
      | some d => if d < base then some (acc * (base : ℤ) + (d : ℤ)) else none
      | none => none)
    (0 : ℤ)

/-- The function `lagrangeInterpolationAtZero` of `main.js`: for each point
`i` it forms `num = Π_{j≠i} (-xj)` and `den = Π_{j≠i} (xi - xj)` as exact
integers and adds the term `yi * num / den`, where `/` is JavaScript's
truncating `BigInt` division (`Int.tdiv`). -/
def lagrangeInterpolationAtZero (points : List (ℤ × ℤ)) : ℤ :=
  points.enum.foldl
    (fun result e =>
      let nd := points.enum.foldl
        (fun nd f =>
          if e.1 = f.1 then nd
          else (nd.1 * (-f.2.1), nd.2 * (e.2.1 - f.2.1)))
        ((1 : ℤ), (1 : ℤ))
      result + Int.tdiv (e.2.2 * nd.1) nd.2)
    0

/-- The share-collection part of `parseInput` in `main.js`, for an
already-parsed JSON object: every non-`keys` entry is decoded with
`convertToDecimal` (a decode failure propagates — nothing is dropped), the
points are sorted by ascending x, and the first `k` are kept.  No check
compares the number of points against `k`. -/
def parseInput (entries : List (ℤ × ℕ × String)) (k : ℕ) :
    Option (List (ℤ × ℤ)) :=
  (entries.mapM (fun e => (convertToDecimal e.2.2 e.2.1).map (fun y => (e.1, y)))).map
    (fun points => (sortBy (fun a b => decide (a.1 ≤ b.1)) points).take k)

/-- The reconstruction path of `main.js`: parse the input, then interpolate
whatever points `parseInput` returned. -/
def mainPipeline (entries : List (ℤ × ℕ × String)) (k : ℕ) : Option ℤ :=
  (parseInput entries k).map lagrangeInterpolationAtZero

/-- Modelled from the spec: the reference exact interpolator of §4.2, which
accumulates the Lagrange sum `Σ_i yi · Π_{j≠i}(-xj) / Π_{j≠i}(xi - xj)` as an
exact rational — kept as a numerator/denominator pair of big integers —
across all terms, with no per-term division. -/
def lagrangeAtZeroRationalPair (points : List (ℤ × ℤ)) : ℤ × ℤ :=
  points.enum.foldl
    (fun result e =>
      let nd := points.enum.foldl
        (fun nd f =>
          if e.1 = f.1 then nd
          else (nd.1 * (-f.2.1), nd.2 * (e.2.1 - f.2.1)))
        ((1 : ℤ), (1 : ℤ))
      (result.1 * nd.2 + e.2.2 * nd.1 * result.2, result.2 * nd.2))
    ((0 : ℤ), (1 : ℤ))

/-- Modelled from the spec: the §4.2 reference interpolator's final step,
reducing the accumulated exact rational to an integer only at the end (the
division is exact whenever the interpolated sum is an integer). -/
def lagrangeAtZeroExact (points : List (ℤ × ℤ)) : ℤ :=
  Int.tdiv (lagrangeAtZeroRationalPair points).1 (lagrangeAtZeroRationalPair points).2

/-- Evaluation of an integer polynomial given by its coefficient list
(constant term first), used to state round-trip properties. -/
def evalPoly (coeffs : List ℤ) (x : ℤ) : ℤ :=
  coeffs.foldr (fun c acc => c + x * acc) 0

end MainJs

namespace Shamir

theorem tmod_neg_left (a b : ℤ) : Int.tmod (-a) b = -Int.tmod a b := by
  rw [Int.tmod_def, Int.tmod_def, Int.neg_tdiv]
  ring

theorem neg_lt_tmod (n : ℤ) {m : ℤ} (hm : 0 < m) : -m < Int.tmod n m := by
  rcases le_or_lt 0 n with h | h
  · have h0 := Int.tmod_nonneg m h
    omega
  · have h1 : Int.tmod (-n) m < m := Int.tmod_lt_of_pos (-n) hm
    have h2 := tmod_neg_left n m
    omega

theorem mod_eq_emod (n m : ℤ) (hm : 0 < m) : Shamir.mod n m = n % m := by
  have hlb := neg_lt_tmod n hm
  have h0 : 0 ≤ Int.tmod n m + m := by omega
  unfold Shamir.mod
  rw [Int.tmod_eq_emod h0 hm.le, Int.tmod_def]
  have he : n - m * n.tdiv m + m = n + m * (1 - n.tdiv m) := by ring
  rw [he, Int.add_mul_emod_self_left]

theorem mod_nonneg (n : ℤ) {m : ℤ} (hm : 0 < m) : 0 ≤ Shamir.mod n m := by
  rw [mod_eq_emod n m hm]
  exact Int.emod_nonneg n hm.ne'

theorem mod_lt (n : ℤ) {m : ℤ} (hm : 0 < m) : Shamir.mod n m < m := by
  rw [mod_eq_emod n m hm]
  exact Int.emod_lt_of_pos n hm

theorem mod_cast_zmod (q : ℕ) (hq : 0 < q) (n : ℤ) :
    ((Shamir.mod n (q : ℤ) : ℤ) : ZMod q) = (n : ZMod q) := by
  rw [mod_eq_emod n (q : ℤ) (by exact_mod_cast hq), ZMod.intCast_eq_intCast_iff']
  exact Int.emod_emod n (q : ℤ)

theorem int_val_cast_of_lt {q : ℕ} [NeZero q] {a : ℤ} (h0 : 0 ≤ a) (h1 : a < (q : ℤ)) :
    (((a : ZMod q)).val : ℤ) = a := by
  rw [ZMod.val_intCast]
  exact Int.emod_eq_of_lt h0 h1

theorem mod_eq_zero_iff (q : ℕ) (hq : 0 < q) (n : ℤ) :
    Shamir.mod n (q : ℤ) = 0 ↔ ((n : ℤ) : ZMod q) = 0 := by
  haveI : NeZero q := ⟨hq.ne'⟩
  have hq' : (0 : ℤ) < (q : ℤ) := by exact_mod_cast hq
  constructor
  · intro h
    rw [← mod_cast_zmod q hq n, h, Int.cast_zero]
  · intro h
    have h2 : ((Shamir.mod n (q : ℤ) : ℤ) : ZMod q) = 0 := by
      rw [mod_cast_zmod q hq n]; exact h
    have h3 := int_val_cast_of_lt (mod_nonneg n hq') (mod_lt n hq')
    rw [h2, ZMod.val_zero] at h3
    exact h3.symm

theorem modInverse_eq_none {a m : ℤ} (hm : 0 < m) (hdvd : m ∣ a) : modInverse a m = none := by
  unfold modInverse
  apply List.find?_eq_none.mpr
  intro x _
  have h1 : Shamir.mod a m = 0 := by
    rw [mod_eq_emod a m hm]
    exact Int.emod_eq_zero_of_dvd hdvd
  have h2 : Shamir.mod 0 m = 0 := by
    rw [mod_eq_emod 0 m hm]
    exact Int.zero_emod m
  simp [h1, h2]

theorem modInverse_prime {q : ℕ} (hq : Nat.Prime q) {d : ℤ} (hd : (d : ZMod q) ≠ 0) :
    ∃ r : ℤ, modInverse d (q : ℤ) = some r ∧ (r : ZMod q) = (d : ZMod q)⁻¹ ∧
      Shamir.mod (d * r) (q : ℤ) = 1 := by
  haveI : Fact (Nat.Prime q) := ⟨hq⟩
  haveI : NeZero q := ⟨hq.ne_zero⟩
  have hq0 : 0 < q := hq.pos
  have hq0' : (0 : ℤ) < (q : ℤ) := by exact_mod_cast hq0
  haveI : Fact (1 < q) := ⟨hq.one_lt⟩
  set b : ℕ := ((d : ZMod q)⁻¹).val with hb
  have hblt : b < q := ZMod.val_lt _
  have hbne : b ≠ 0 := by
    intro h
    exact inv_ne_zero hd ((ZMod.val_eq_zero _).mp h)
  have hbcast : ((b : ℤ) : ZMod q) = (d : ZMod q)⁻¹ := by
    push_cast
    rw [ZMod.natCast_val, ZMod.cast_id]
  have hpred : Shamir.mod (Shamir.mod d (q : ℤ) * (b : ℤ)) (q : ℤ) = 1 := by
    have hc : ((Shamir.mod (Shamir.mod d (q : ℤ) * (b : ℤ)) (q : ℤ) : ℤ) : ZMod q) = 1 := by
      rw [mod_cast_zmod q hq0, Int.cast_mul, mod_cast_zmod q hq0, hbcast]
      exact mul_inv_cancel₀ hd
    have h3 := int_val_cast_of_lt
      (mod_nonneg (Shamir.mod d (q : ℤ) * (b : ℤ)) hq0')
      (mod_lt (Shamir.mod d (q : ℤ) * (b : ℤ)) hq0')
    rw [hc, ZMod.val_one] at h3
    exact h3.symm
  have hmem : (b : ℤ) ∈ (List.range (((q : ℤ) - 1).toNat)).map (fun i : ℕ => (i : ℤ) + 1) := by
    have hr : b - 1 ∈ List.range (((q : ℤ) - 1).toNat) := by
      rw [List.mem_range]
      omega
    have h3 : ((b - 1 : ℕ) : ℤ) + 1 ∈
        (List.range (((q : ℤ) - 1).toNat)).map (fun i : ℕ => (i : ℤ) + 1) :=
      List.mem_map_of_mem (fun i : ℕ => (i : ℤ) + 1) hr
    have h2 : ((b - 1 : ℕ) : ℤ) + 1 = (b : ℤ) := by omega
    rw [h2] at h3
    exact h3
  rcases hfind : (List.range (((q : ℤ) - 1).toNat)).map (fun i : ℕ => (i : ℤ) + 1)
      |>.find? (fun x => Shamir.mod (Shamir.mod d (q : ℤ) * x) (q : ℤ) == 1) with _ | r
  · exfalso
    have hnone := List.find?_eq_none.mp hfind (b : ℤ) hmem
    apply hnone
    simp [hpred]
  · have hp := List.find?_some hfind
    simp only [beq_iff_eq] at hp
    have hcast : (d : ZMod q) * (r : ZMod q) = 1 := by
      have hc2 : ((Shamir.mod (Shamir.mod d (q : ℤ) * r) (q : ℤ) : ℤ) : ZMod q) = ((1 : ℤ) : ZMod q) := by
        rw [hp]
      rw [mod_cast_zmod q hq0, Int.cast_mul, mod_cast_zmod q hq0] at hc2
      simpa using hc2
    refine ⟨r, ?_, eq_inv_of_mul_eq_one_right hcast, ?_⟩
    · unfold modInverse
      exact hfind
    · have hmm : Shamir.mod (d * r) (q : ℤ) = Shamir.mod (Shamir.mod d (q : ℤ) * r) (q : ℤ) := by
        rw [mod_eq_emod _ _ hq0', mod_eq_emod _ _ hq0', mod_eq_emod d _ hq0']
        conv_lhs => rw [Int.mul_emod]
        conv_rhs => rw [Int.mul_emod, Int.emod_emod]
      rw [hmm, hp]

end Shamir

namespace Shamir

theorem prodXZ_cons (q j : ℕ) (e : ℕ × ℤ × ℤ) (t : List (ℕ × ℤ × ℤ)) :
    prodXZ q j (e :: t) = (if e.1 = j then 1 else ((e.2.1 : ZMod q))) * prodXZ q j t := by
  simp [prodXZ]

theorem prodDZ_cons (q j : ℕ) (xj : ℤ) (e : ℕ × ℤ × ℤ) (t : List (ℕ × ℤ × ℤ)) :
    prodDZ q j xj (e :: t) =
      (if e.1 = j then 1 else ((e.2.1 : ZMod q) - (xj : ZMod q))) * prodDZ q j xj t := by
  simp [prodDZ]

theorem reconstructNumDen_ok (q : ℕ) (hq : 0 < q) (xj : ℤ) (j : ℕ) :
    ∀ (l : List (ℕ × ℤ × ℤ)) (num den : ℤ),
      (∀ e ∈ l, e.1 ≠ j → ((e.2.1 - xj : ℤ) : ZMod q) ≠ 0) →
      ∃ nd : ℤ × ℤ, reconstructNumDen (q : ℤ) xj j l (num, den) = .ok nd ∧
        (nd.1 : ZMod q) = (num : ZMod q) * prodXZ q j l ∧
        (nd.2 : ZMod q) = (den : ZMod q) * prodDZ q j xj l := by
  intro l
  induction l with
  | nil =>
    intro num den _
    exact ⟨(num, den), rfl, by simp [prodXZ], by simp [prodDZ]⟩
  | cons hd t ih =>
    obtain ⟨m, xm, ym⟩ := hd
    intro num den h
    by_cases hm : m = j
    · subst hm
      obtain ⟨nd, hnd, h1, h2⟩ := ih num den (fun e he hne => h e (List.mem_cons_of_mem _ he) hne)
      refine ⟨nd, ?_, ?_, ?_⟩
      · simpa [reconstructNumDen] using hnd
      · rw [prodXZ_cons]
        simpa using h1
      · rw [prodDZ_cons]
        simpa using h2
    · have hne0 : ((xm - xj : ℤ) : ZMod q) ≠ 0 := h (m, xm, ym) (List.mem_cons_self _ _) hm
      have hdiff : Shamir.mod (xm - xj) (q : ℤ) ≠ 0 := by
        intro h0
        exact hne0 ((mod_eq_zero_iff q hq _).mp h0)
      obtain ⟨nd, hnd, h1, h2⟩ :=
        ih (Shamir.mod (num * xm) (q : ℤ))
          (Shamir.mod (den * Shamir.mod (xm - xj) (q : ℤ)) (q : ℤ))
          (fun e he hne => h e (List.mem_cons_of_mem _ he) hne)
      refine ⟨nd, ?_, ?_, ?_⟩
      · simp only [reconstructNumDen, if_neg hm, if_neg hdiff]
        exact hnd
      · rw [prodXZ_cons, if_neg hm, h1, mod_cast_zmod q hq, Int.cast_mul]
        ring
      · rw [prodDZ_cons, if_neg hm, h2, mod_cast_zmod q hq, Int.cast_mul,
          mod_cast_zmod q hq, Int.cast_sub]
        ring

theorem reconstructNumDen_degenerate (q : ℕ) (hq : 0 < q) (xj : ℤ) (j : ℕ) :
    ∀ (l : List (ℕ × ℤ × ℤ)) (num den : ℤ),
      Collides q l j xj →
      reconstructNumDen (q : ℤ) xj j l (num, den) = .error .degenerateShares := by
  intro l
  induction l with
  | nil =>
    intro num den h
    obtain ⟨e, he, _, _⟩ := h
    exact absurd he (List.not_mem_nil e)
  | cons hd t ih =>
    obtain ⟨m, xm, ym⟩ := hd
    intro num den h
    by_cases hm : m = j
    · have hw : Collides q t j xj := by
        obtain ⟨e, he, hne, heq⟩ := h
        rcases List.mem_cons.mp he with rfl | he'
        · exact absurd hm hne
        · exact ⟨e, he', hne, heq⟩
      simp only [reconstructNumDen, if_pos hm]
      exact ih num den hw
    · by_cases hc : ((xm - xj : ℤ) : ZMod q) = 0
      · have hdiff : Shamir.mod (xm - xj) (q : ℤ) = 0 := (mod_eq_zero_iff q hq _).mpr hc
        simp [reconstructNumDen, if_neg hm, hdiff]
      · have hdiff : Shamir.mod (xm - xj) (q : ℤ) ≠ 0 := by
          intro h0
          exact hc ((mod_eq_zero_iff q hq _).mp h0)
        have hw : Collides q t j xj := by
          obtain ⟨e, he, hne, heq⟩ := h
          rcases List.mem_cons.mp he with rfl | he'
          · exact absurd heq hc
          · exact ⟨e, he', hne, heq⟩
        simp only [reconstructNumDen, if_neg hm, if_neg hdiff]
        exact ih _ _ hw

theorem prodDZ_ne_zero {q : ℕ} (hq : Nat.Prime q) (xj : ℤ) (j : ℕ)
    (allE : List (ℕ × ℤ × ℤ))
    (hforall : ∀ e ∈ allE, e.1 ≠ j → ((e.2.1 - xj : ℤ) : ZMod q) ≠ 0) :
    prodDZ q j xj allE ≠ 0 := by
  haveI : Fact (Nat.Prime q) := ⟨hq⟩
  unfold prodDZ
  apply List.prod_ne_zero
  intro hmem0
  obtain ⟨e, he, heq⟩ := List.mem_map.mp hmem0
  by_cases hej : e.1 = j
  · rw [if_pos hej] at heq
    exact one_ne_zero heq
  · rw [if_neg hej] at heq
    exact hforall e he hej (by push_cast; exact heq)

theorem reconstructLoop_ok (q : ℕ) (hq : Nat.Prime q) (allE : List (ℕ × ℤ × ℤ)) :
    ∀ (rest : List (ℕ × ℤ × ℤ)) (secret : ℤ),
      (∀ e ∈ rest, ¬ Collides q allE e.1 e.2.1) →
      0 ≤ secret → secret < (q : ℤ) →
      ∃ v : ℤ, reconstructLoop (q : ℤ) allE rest secret = .ok v ∧
        (v : ZMod q) = (secret : ZMod q) + (rest.map (termZ q allE)).sum ∧
        0 ≤ v ∧ v < (q : ℤ) := by
  haveI : Fact (Nat.Prime q) := ⟨hq⟩
  have hq0 : 0 < q := hq.pos
  have hq0' : (0 : ℤ) < (q : ℤ) := by exact_mod_cast hq0
  intro rest
  induction rest with
  | nil =>
    intro secret _ h0 h1
    exact ⟨secret, rfl, by simp, h0, h1⟩
  | cons hd t ih =>
    obtain ⟨j, xj, yj⟩ := hd
    intro secret h h0 h1
    have hnc : ¬ Collides q allE j xj := h (j, xj, yj) (List.mem_cons_self _ _)
    have hforall : ∀ e ∈ allE, e.1 ≠ j → ((e.2.1 - xj : ℤ) : ZMod q) ≠ 0 := by
      intro e he hne heq
      exact hnc ⟨e, he, hne, heq⟩
    obtain ⟨nd, hnd, hnum, hden⟩ := reconstructNumDen_ok q hq0 xj j allE 1 1 hforall
    obtain ⟨num, den⟩ := nd
    rw [Int.cast_one, one_mul] at hnum hden
    have hdnz : (den : ZMod q) ≠ 0 := by
      rw [hden]
      exact prodDZ_ne_zero hq xj j allE hforall
    obtain ⟨r, hr, hrc, _⟩ := modInverse_prime hq hdnz
    have hstep : reconstructLoop (q : ℤ) allE ((j, xj, yj) :: t) secret =
        reconstructLoop (q : ℤ) allE t
          (Shamir.mod (secret + Shamir.mod (Shamir.mod (yj * r) (q : ℤ) * num) (q : ℤ)) (q : ℤ)) := by
      simp only [reconstructLoop, hnd, hr]
    obtain ⟨v, hv, hvc, hv0, hv1⟩ :=
      ih (Shamir.mod (secret + Shamir.mod (Shamir.mod (yj * r) (q : ℤ) * num) (q : ℤ)) (q : ℤ))
        (fun e he => h e (List.mem_cons_of_mem _ he))
        (mod_nonneg _ hq0') (mod_lt _ hq0')
    refine ⟨v, by rw [hstep]; exact hv, ?_, hv0, hv1⟩
    rw [hvc]
    have hsec : ((Shamir.mod (secret + Shamir.mod (Shamir.mod (yj * r) (q : ℤ) * num) (q : ℤ)) (q : ℤ) : ℤ) : ZMod q)
        = (secret : ZMod q) + termZ q allE (j, xj, yj) := by
      rw [mod_cast_zmod q hq0, Int.cast_add, mod_cast_zmod q hq0, Int.cast_mul,
        mod_cast_zmod q hq0, Int.cast_mul, hrc, hden, hnum]
      unfold termZ
      ring
    rw [hsec, List.map_cons, List.sum_cons, ← add_assoc]

theorem reconstructLoop_degenerate (q : ℕ) (hq : Nat.Prime q) (allE : List (ℕ × ℤ × ℤ)) :
    ∀ (rest : List (ℕ × ℤ × ℤ)) (secret : ℤ),
      (∃ e ∈ rest, Collides q allE e.1 e.2.1) →
      reconstructLoop (q : ℤ) allE rest secret = .error .degenerateShares := by
  haveI : Fact (Nat.Prime q) := ⟨hq⟩
  have hq0 : 0 < q := hq.pos
  intro rest
  induction rest with
  | nil =>
    intro secret h
    obtain ⟨e, he, _⟩ := h
    exact absurd he (List.not_mem_nil e)
  | cons hd t ih =>
    obtain ⟨j, xj, yj⟩ := hd
    intro secret h
    by_cases hc : Collides q allE j xj
    · have hdeg := reconstructNumDen_degenerate q hq0 xj j allE 1 1 hc
      simp only [reconstructLoop, hdeg]
    · have hforall : ∀ e ∈ allE, e.1 ≠ j → ((e.2.1 - xj : ℤ) : ZMod q) ≠ 0 := by
        intro e he hne heq
        exact hc ⟨e, he, hne, heq⟩
      obtain ⟨nd, hnd, hnum, hden⟩ := reconstructNumDen_ok q hq0 xj j allE 1 1 hforall
      obtain ⟨num, den⟩ := nd
      rw [Int.cast_one, one_mul] at hnum hden
      have hdnz : (den : ZMod q) ≠ 0 := by
        rw [hden]
        exact prodDZ_ne_zero hq xj j allE hforall
      obtain ⟨r, hr, _, _⟩ := modInverse_prime hq hdnz
      have hw : ∃ e ∈ t, Collides q allE e.1 e.2.1 := by
        obtain ⟨e, he, hce⟩ := h
        rcases List.mem_cons.mp he with rfl | he'
        · exact absurd hce hc
        · exact ⟨e, he', hce⟩
      simp only [reconstructLoop, hnd, hr]
      exact ih _ hw

theorem reconstructLoop_range (p : ℤ) (hp : 0 < p) (allE : List (ℕ × ℤ × ℤ)) :
    ∀ (rest : List (ℕ × ℤ × ℤ)) (secret v : ℤ),
      0 ≤ secret → secret < p →
      reconstructLoop p allE rest secret = .ok v → 0 ≤ v ∧ v < p := by
  intro rest
  induction rest with
  | nil =>
    intro secret v h0 h1 hok
    have hsv : secret = v := by simpa [reconstructLoop] using hok
    subst hsv
    exact ⟨h0, h1⟩
  | cons hd t ih =>
    obtain ⟨j, xj, yj⟩ := hd
    intro secret v h0 h1 hok
    rcases hnd : reconstructNumDen p xj j allE (1, 1) with e | nd
    · rw [reconstructLoop, hnd] at hok
      cases hok
    · obtain ⟨num, den⟩ := nd
      rcases hinv : modInverse den p with _ | r
      · simp only [reconstructLoop, hnd, hinv] at hok
        cases hok
      · simp only [reconstructLoop, hnd, hinv] at hok
        exact ih _ v (mod_nonneg _ hp) (mod_lt _ hp) hok

end Shamir

namespace Shamir

theorem enum_eq_ofFn {α : Type} (l : List α) :
    l.enum = List.ofFn (fun i : Fin l.length => ((i : ℕ), l.get i)) := by
  apply List.ext_getElem
  · simp
  · intro i h1 h2
    simp [List.enum_eq_enumFrom, List.getElem_enumFrom, List.getElem_ofFn]

theorem map_enum_sum {α : Type} {M : Type} [AddCommMonoid M] (l : List α) (F : ℕ × α → M) :
    (l.enum.map F).sum = ∑ i : Fin l.length, F ((i : ℕ), l.get i) := by
  rw [enum_eq_ofFn, List.map_ofFn, List.sum_ofFn]
  rfl

theorem map_enum_prod {α : Type} {M : Type} [CommMonoid M] (l : List α) (F : ℕ × α → M) :
    (l.enum.map F).prod = ∏ i : Fin l.length, F ((i : ℕ), l.get i) := by
  rw [enum_eq_ofFn, List.map_ofFn, List.prod_ofFn]
  rfl

theorem mem_enum_iff {α : Type} {l : List α} {e : ℕ × α} :
    e ∈ l.enum ↔ ∃ i : Fin l.length, ((i : ℕ), l.get i) = e := by
  rw [enum_eq_ofFn, List.mem_ofFn]
  exact Iff.rfl

theorem prod_ite_erase {n : ℕ} {M : Type} [CommMonoid M] (i0 : Fin n) (f : Fin n → M) :
    (∏ i : Fin n, if i = i0 then 1 else f i) = ∏ i ∈ Finset.univ.erase i0, f i := by
  have h : ∏ x ∈ Finset.univ.erase i0, (if x = i0 then 1 else f x)
      = ∏ x : Fin n, (if x = i0 then 1 else f x) :=
    Finset.prod_erase Finset.univ (if_pos rfl)
  rw [← h]
  exact Finset.prod_congr rfl (fun x hx => if_neg (Finset.mem_erase.mp hx).1)

theorem prodXZ_enum (q : ℕ) (shares : List (ℤ × ℤ)) (i0 : Fin shares.length) :
    prodXZ q (i0 : ℕ) shares.enum =
      ∏ i ∈ Finset.univ.erase i0, ((shares.get i).1 : ZMod q) := by
  unfold prodXZ
  rw [map_enum_prod]
  have h1 : ∀ i : Fin shares.length,
      (if (((i : ℕ), shares.get i) : ℕ × ℤ × ℤ).1 = (i0 : ℕ) then (1 : ZMod q)
        else (((((i : ℕ), shares.get i) : ℕ × ℤ × ℤ)).2.1 : ZMod q))
      = (if i = i0 then 1 else ((shares.get i).1 : ZMod q)) := by
    intro i
    simp only [Fin.val_eq_val]
  rw [Finset.prod_congr rfl (fun i _ => h1 i)]
  exact prod_ite_erase i0 _

theorem prodDZ_enum (q : ℕ) (shares : List (ℤ × ℤ)) (i0 : Fin shares.length) :
    prodDZ q (i0 : ℕ) ((shares.get i0).1) shares.enum =
      ∏ i ∈ Finset.univ.erase i0,
        (((shares.get i).1 : ZMod q) - ((shares.get i0).1 : ZMod q)) := by
  unfold prodDZ
  rw [map_enum_prod]
  have h1 : ∀ i : Fin shares.length,
      (if (((i : ℕ), shares.get i) : ℕ × ℤ × ℤ).1 = (i0 : ℕ) then (1 : ZMod q)
        else (((((i : ℕ), shares.get i) : ℕ × ℤ × ℤ)).2.1 : ZMod q) - (((shares.get i0).1 : ℤ) : ZMod q))
      = (if i = i0 then 1
        else ((shares.get i).1 : ZMod q) - ((shares.get i0).1 : ZMod q)) := by
    intro i
    simp only [Fin.val_eq_val]
  rw [Finset.prod_congr rfl (fun i _ => h1 i)]
  exact prod_ite_erase i0 _

end Shamir

namespace Shamir

theorem eval_basis_at_zero {q : ℕ} [Fact (Nat.Prime q)] {n : ℕ}
    (x : Fin n → ZMod q) (i0 : Fin n) :
    (Lagrange.basis Finset.univ x i0).eval 0 =
      (∏ i ∈ Finset.univ.erase i0, (x i - x i0))⁻¹ *
        ∏ i ∈ Finset.univ.erase i0, x i := by
  unfold Lagrange.basis
  rw [Polynomial.eval_prod]
  have h1 : ∀ i ∈ Finset.univ.erase i0,
      (Lagrange.basisDivisor (x i0) (x i)).eval 0 = (x i - x i0)⁻¹ * x i := by
    intro i _
    unfold Lagrange.basisDivisor
    rw [Polynomial.eval_mul, Polynomial.eval_C, Polynomial.eval_sub, Polynomial.eval_X,
      Polynomial.eval_C, zero_sub, show x i0 - x i = -(x i - x i0) by ring, inv_neg]
    ring
  rw [Finset.prod_congr rfl h1, Finset.prod_mul_distrib, Finset.prod_inv_distrib]

end Shamir

open Shamir in
/-- C1: for every prime `p > 2` and every polynomial of degree `k - 1` over
the field of `p` elements, if the shares are the points `(x i, P (x i))` at
`k` x-coordinates that are pairwise distinct mod `p` and nonzero mod `p`,
then `reconstructSecret` applied to those `k` shares and `p` returns the
constant term `P 0`, represented by its canonical value in `[0, p)`. -/
theorem C1_reconstructSecret_recovers_constant_term (q : ℕ) (hq : Nat.Prime q)
    (hq2 : 2 < q) (P : Polynomial (ZMod q)) (shares : List (ℤ × ℤ))
    (hne : shares ≠ [])
    (hdeg : P.degree < shares.length)
    (hy : ∀ s ∈ shares, (s.2 : ZMod q) = P.eval ((s.1 : ZMod q)))
    (hx0 : ∀ s ∈ shares, (s.1 : ZMod q) ≠ 0)
    (hdist : shares.Pairwise (fun s t => (s.1 : ZMod q) ≠ (t.1 : ZMod q))) :
    reconstructSecret shares (q : ℤ) = Except.ok (((P.eval 0).val : ℤ)) := by
  haveI : Fact (Nat.Prime q) := ⟨hq⟩
  haveI : NeZero q := ⟨hq.ne_zero⟩
  have hq0 : 0 < q := hq.pos
  have hq0' : (0 : ℤ) < (q : ℤ) := by exact_mod_cast hq0
  have hget : ∀ i j : Fin shares.length, i ≠ j →
      ((shares.get i).1 : ZMod q) ≠ ((shares.get j).1 : ZMod q) := by
    intro i j hij
    rcases lt_or_gt_of_ne hij with h | h
    · exact List.pairwise_iff_get.mp hdist i j h
    · exact (List.pairwise_iff_get.mp hdist j i h).symm
  have hnc : ∀ e ∈ shares.enum, ¬ Collides q shares.enum e.1 e.2.1 := by
    intro e he hcol
    obtain ⟨i, hi⟩ := mem_enum_iff.mp he
    obtain ⟨e', he', hne', heq'⟩ := hcol
    obtain ⟨j, hj⟩ := mem_enum_iff.mp he'
    subst hi
    subst hj
    have hij : j ≠ i := by
      intro hh
      apply hne'
      rw [hh]
    apply hget j i hij
    have h0 : ((shares.get j).1 : ZMod q) - ((shares.get i).1 : ZMod q) = 0 := by
      push_cast at heq'
      exact heq'
    exact sub_eq_zero.mp h0
  obtain ⟨v, hv, hvc, hv0, hv1⟩ :=
    reconstructLoop_ok q hq shares.enum shares.enum 0 hnc le_rfl hq0'
  have hlen0 : ¬ (shares.length = 0) := by
    simpa [List.length_eq_zero] using hne
  have hrs : reconstructSecret shares (q : ℤ) = Except.ok v := by
    unfold reconstructSecret
    rw [if_neg hlen0]
    exact hv
  set x : Fin shares.length → ZMod q := fun i => ((shares.get i).1 : ZMod q) with hxdef
  have hsum : ((shares.enum.map (termZ q shares.enum)).sum) = P.eval 0 := by
    rw [map_enum_sum]
    have hterm : ∀ i0 : Fin shares.length,
        termZ q shares.enum ((i0 : ℕ), shares.get i0)
          = ((shares.get i0).2 : ZMod q) *
            (∏ i ∈ Finset.univ.erase i0, (x i - x i0))⁻¹ *
            ∏ i ∈ Finset.univ.erase i0, x i := by
      intro i0
      unfold termZ
      dsimp only
      rw [prodXZ_enum, prodDZ_enum]
    rw [Finset.sum_congr rfl (fun i _ => hterm i)]
    have hinj : Set.InjOn x (Finset.univ : Finset (Fin shares.length)) := by
      intro i _ j _ hxy
      by_contra hij
      exact hget i j hij hxy
    have hcard : P.degree < (Finset.univ : Finset (Fin shares.length)).card := by
      simpa [Finset.card_univ] using hdeg
    have hP := Lagrange.eq_interpolate hinj hcard
    have hev : P.eval 0 = ∑ i : Fin shares.length,
        P.eval (x i) * ((Lagrange.basis Finset.univ x i).eval 0) := by
      conv_lhs => rw [hP]
      rw [Lagrange.interpolate_apply, Polynomial.eval_finset_sum]
      refine Finset.sum_congr rfl (fun i _ => ?_)
      rw [Polynomial.eval_mul, Polynomial.eval_C]
    rw [hev]
    refine Finset.sum_congr rfl (fun i _ => ?_)
    rw [eval_basis_at_zero x i]
    have hyi : ((shares.get i).2 : ZMod q) = P.eval (x i) := hy _ (List.get_mem _ _ _)
    rw [hyi]
    ring
  have hvp : (v : ZMod q) = P.eval 0 := by
    rw [hvc, hsum]
    simp
  have hvv : (((P.eval 0).val : ℤ)) = v := by
    rw [← hvp]
    exact int_val_cast_of_lt hv0 hv1
  rw [hrs, hvv]

open Shamir in
/-- C1 witness: the constant polynomial `2` over `ZMod 5` with the single
share `(1, 2)` is reconstructed exactly. -/
theorem C1_witness : Shamir.reconstructSecret [((1 : ℤ), (2 : ℤ))] 5 = Except.ok 2 := by
  have h := C1_reconstructSecret_recovers_constant_term 5 (by norm_num) (by norm_num)
    (Polynomial.C (2 : ZMod 5)) [((1 : ℤ), (2 : ℤ))]
    (by decide)
    (lt_of_le_of_lt Polynomial.degree_C_le (by decide))
    (by
      intro s hs
      rw [List.mem_singleton] at hs
      subst hs
      rw [Polynomial.eval_C]
      decide)
    (by
      intro s hs
      rw [List.mem_singleton] at hs
      subst hs
      decide)
    (by simp)
  have h2 : (((Polynomial.C (2 : ZMod 5)).eval 0).val : ℤ) = 2 := by
    rw [Polynomial.eval_C]
    decide
  rw [h2] at h
  exact_mod_cast h

open Shamir in
/-- C6: for a prime modulus and at least two shares, `reconstructSecret`
fails with `degenerateShares` exactly when two distinct selected shares have
x-coordinates that are congruent mod `p` (raw duplicates included); when no
such pair exists it returns a value without raising. -/
theorem C6_reconstructSecret_degenerate_iff (q : ℕ) (hq : Nat.Prime q)
    (shares : List (ℤ × ℤ)) (hlen : 2 ≤ shares.length) :
    (reconstructSecret shares (q : ℤ) = Except.error RecError.degenerateShares ↔
      ∃ i j : Fin shares.length, i ≠ j ∧
        ((shares.get i).1 : ZMod q) = ((shares.get j).1 : ZMod q))
    ∧ ((¬ ∃ i j : Fin shares.length, i ≠ j ∧
        ((shares.get i).1 : ZMod q) = ((shares.get j).1 : ZMod q)) →
      ∃ v, reconstructSecret shares (q : ℤ) = Except.ok v) := by
  have hq0 : 0 < q := hq.pos
  have hq0' : (0 : ℤ) < (q : ℤ) := by exact_mod_cast hq0
  have hlen0 : ¬ (shares.length = 0) := by omega
  have hok : (¬ ∃ i j : Fin shares.length, i ≠ j ∧
      ((shares.get i).1 : ZMod q) = ((shares.get j).1 : ZMod q)) →
      ∃ v, reconstructSecret shares (q : ℤ) = Except.ok v := by
    intro hno
    have hnc : ∀ e ∈ shares.enum, ¬ Collides q shares.enum e.1 e.2.1 := by
      intro e he hcol
      obtain ⟨i, hi⟩ := mem_enum_iff.mp he
      obtain ⟨e', he', hne', heq'⟩ := hcol
      obtain ⟨j, hj⟩ := mem_enum_iff.mp he'
      subst hi
      subst hj
      apply hno
      refine ⟨j, i, ?_, ?_⟩
      · intro hji
        apply hne'
        rw [hji]
      · have h0 : ((shares.get j).1 : ZMod q) - ((shares.get i).1 : ZMod q) = 0 := by
          push_cast at heq'
          exact heq'
        exact sub_eq_zero.mp h0
    obtain ⟨v, hv, _, _, _⟩ := reconstructLoop_ok q hq shares.enum shares.enum 0 hnc le_rfl hq0'
    refine ⟨v, ?_⟩
    unfold reconstructSecret
    rw [if_neg hlen0]
    exact hv
  refine ⟨⟨?_, ?_⟩, hok⟩
  · intro herr
    by_contra hno
    obtain ⟨v, hv⟩ := hok hno
    rw [hv] at herr
    cases herr
  · intro hpair
    obtain ⟨i, j, hij, heq⟩ := hpair
    have hme : ((i : ℕ), shares.get i) ∈ shares.enum := mem_enum_iff.mpr ⟨i, rfl⟩
    have hme' : ((j : ℕ), shares.get j) ∈ shares.enum := mem_enum_iff.mpr ⟨j, rfl⟩
    have hcol : Collides q shares.enum (i : ℕ) ((shares.get i).1) := by
      refine ⟨((j : ℕ), shares.get j), hme', ?_, ?_⟩
      · intro hji
        exact hij ((Fin.val_eq_val j i).mp hji).symm
      · push_cast
        exact sub_eq_zero.mpr heq.symm
    have herr := reconstructLoop_degenerate q hq shares.enum shares.enum 0
      ⟨((i : ℕ), shares.get i), hme, hcol⟩
    unfold reconstructSecret
    rw [if_neg hlen0]
    exact herr

open Shamir in
/-- C6 witness: with modulus 5, the shares at x = 1 and x = 6 collide mod 5
and reconstruction fails with `degenerateShares`. -/
theorem C6_witness :
    Shamir.reconstructSecret [((1 : ℤ), (3 : ℤ)), ((6 : ℤ), (4 : ℤ))] 5 =
      Except.error Shamir.RecError.degenerateShares := by
  have h := (C6_reconstructSecret_degenerate_iff 5 (by norm_num)
    [((1 : ℤ), (3 : ℤ)), ((6 : ℤ), (4 : ℤ))] (by decide)).1.mpr
    ⟨⟨0, by decide⟩, ⟨1, by decide⟩, by decide, by decide⟩
  exact_mod_cast h

open Shamir in
/-- C7: for a prime modulus `p`, `modInverse` returns, for every `1 ≤ a < p`,
a value `r` with `mod (a * r) p = 1`; and for every multiple of the modulus
it fails with `NoInverseExists` (returns nothing) instead. -/
theorem C7_modInverse_correct (q : ℕ) (hq : Nat.Prime q) :
    (∀ a : ℤ, 1 ≤ a → a < (q : ℤ) →
      ∃ r, modInverse a (q : ℤ) = some r ∧ Shamir.mod (a * r) (q : ℤ) = 1)
    ∧ (∀ (m a : ℤ), 0 < m → m ∣ a → modInverse a m = none) := by
  constructor
  · intro a h1 h2
    have hd : (a : ZMod q) ≠ 0 := by
      intro h0
      rw [ZMod.intCast_zmod_eq_zero_iff_dvd] at h0
      have := Int.le_of_dvd (by omega) h0
      omega
    obtain ⟨r, hr, _, hmod⟩ := modInverse_prime hq hd
    exact ⟨r, hr, hmod⟩
  · intro m a hm hdvd
    exact modInverse_eq_none hm hdvd

/-- C7 witness: mod 7, the inverse of 3 is found and satisfies the defining
congruence, and 14 (a multiple of 7) has no inverse. -/
theorem C7_witness :
    (∃ r, Shamir.modInverse 3 7 = some r ∧ Shamir.mod (3 * r) 7 = 1) ∧
      Shamir.modInverse 14 7 = none := by
  have h := C7_modInverse_correct 7 (by norm_num)
  exact ⟨h.1 3 (by norm_num) (by norm_num), h.2 7 14 (by norm_num) (by norm_num)⟩

open Shamir in
/-- C9: whenever `reconstructSecret` succeeds for a positive modulus, the
returned value lies in `[0, modulus)`. -/
theorem C9_reconstructSecret_in_range (shares : List (ℤ × ℤ)) (p : ℤ) (hp : 0 < p)
    (v : ℤ) (hok : reconstructSecret shares p = Except.ok v) : 0 ≤ v ∧ v < p := by
  unfold reconstructSecret at hok
  by_cases hl : shares.length = 0
  · rw [if_pos hl] at hok
    cases hok
  · rw [if_neg hl] at hok
    exact reconstructLoop_range p hp shares.enum shares.enum 0 v le_rfl hp hok

/-- C9 witness: a concrete successful run whose result 3 lies in `[0, 7)`. -/
theorem C9_witness :
    Shamir.reconstructSecret [((2 : ℤ), (3 : ℤ))] 7 = Except.ok 3 ∧
      ((0 : ℤ) ≤ 3 ∧ (3 : ℤ) < 7) :=
  ⟨rfl, C9_reconstructSecret_in_range [((2 : ℤ), (3 : ℤ))] 7 (by norm_num) 3 rfl⟩

/-- C10: for every modulus, `reconstructSecret` applied to an empty share
list fails with the no-shares error rather than returning a value. -/
theorem C10_reconstructSecret_empty (p : ℤ) :
    Shamir.reconstructSecret [] p = Except.error Shamir.RecError.noShares := rfl

open Shamir in
/-- C8 (amended): on the `processTestCase` path, with valid `n` and `k`, if
fewer than `k` shares survive base-range checking and decoding then the run
fails with `insufficientShares` and produces no secret.  (The `main.js`
path performs no such check; see the counterexample.) -/
theorem C8_processTestCase_insufficient (entries : List (ℤ × ℤ × String))
    (n k p : ℤ) (hn : 1 ≤ n) (hk2 : 2 ≤ k) (hkn : k ≤ n)
    (hcount : ((survivingShares entries).length : ℤ) < k) :
    processTestCase entries n k p = Except.error TCError.insufficientShares := by
  simp only [processTestCase]
  rw [if_neg (show ¬ n < 1 by omega), if_neg (show ¬ (k < 2 ∨ k > n) by omega),
    if_pos hcount]

/-- C8 witness: one decodable share against threshold `k = 2` fails with
`insufficientShares` on the `processTestCase` path. -/
theorem C8_witness :
    Shamir.processTestCase [((1 : ℤ), (10 : ℤ), "4")] 2 2 7 =
      Except.error Shamir.TCError.insufficientShares :=
  C8_processTestCase_insufficient [((1 : ℤ), (10 : ℤ), "4")] 2 2 7
    (by norm_num) (by norm_num) (by norm_num) (by decide)

/-- C8 counterexample: the `main.js` reconstruction path, given only two
decodable shares and `k = 3`, performs no share-count check and returns a
secret instead of failing with an insufficient-shares error. -/
theorem C8_counterexample_mainPath :
    MainJs.mainPipeline [((1 : ℤ), (10 : ℕ), "4"), ((2 : ℤ), (10 : ℕ), "7")] 3 = some 1 := rfl

/-- C2: the exact interpolator of `main.js` on the shares of `P(x) = x²`
(coefficients `[0, 0, 1]`) at the distinct nonzero x-coordinates 1, 2, 4
returns `-1`, not the constant term `P(0) = 0`: the per-term truncating
division loses the fractional parts `8/3` and `32/6`. -/
theorem C2_lagrange_truncation_counterexample :
    MainJs.evalPoly [0, 0, 1] 1 = 1 ∧ MainJs.evalPoly [0, 0, 1] 2 = 4 ∧
    MainJs.evalPoly [0, 0, 1] 4 = 16 ∧ MainJs.evalPoly [0, 0, 1] 0 = 0 ∧
    MainJs.lagrangeInterpolationAtZero [(1, 1), (2, 4), (4, 16)] = -1 :=
  ⟨rfl, rfl, rfl, rfl, rfl⟩

/-- C3: on the same input the spec's required exact-rational accumulation
yields 0 while the code's per-term truncating division yields `-1`, so
`lagrangeInterpolationAtZero` does not refine the rational reference. -/
theorem C3_lagrange_not_rational_reference :
    MainJs.lagrangeInterpolationAtZero [(1, 1), (2, 4), (4, 16)] = -1 ∧
    MainJs.lagrangeAtZeroExact [(1, 1), (2, 4), (4, 16)] = 0 ∧
    MainJs.lagrangeAtZeroRationalPair [(1, 1), (2, 4), (4, 16)] = (0, -36) :=
  ⟨rfl, rfl, rfl⟩

/-- C4: the pinned decoder examples hold for `convertToDecimal` of `main.js`
but fail for `decodeYValue` of `shamir.js`, whose `BigInt(valueString, base)`
call ignores the base: it parses `"111"` as decimal 111, throws on `"a"`,
and parses `"213"` as decimal 213. -/
theorem C4_decoder_pinned_examples :
    MainJs.convertToDecimal "111" 2 = some 7 ∧
    MainJs.convertToDecimal "a" 16 = some 10 ∧
    MainJs.convertToDecimal "213" 4 = some 39 ∧
    Shamir.decodeYValue "111" 2 = some 111 ∧
    Shamir.decodeYValue "a" 16 = none ∧
    Shamir.decodeYValue "213" 4 = some 213 :=
  ⟨rfl, rfl, rfl, rfl, rfl, rfl⟩

/-- C5: both decoders accept the empty string (returning 0) instead of
failing, and `decodeYValue` rejects `"a"` in base 16 even though the digit
value 10 is below the base — the stated failure condition does not match
either decoder. -/
theorem C5_decoder_error_behaviour :
    MainJs.convertToDecimal "" 2 = some 0 ∧
    Shamir.decodeYValue "" 2 = some 0 ∧
    Shamir.decodeYValue "a" 16 = none :=
  ⟨rfl, rfl, rfl⟩
